import Mathlib

/-!
# Verification of the promptshieldAI threat detector

Shallow embedding of `src/backend/detector.py` and `src/backend/ml_model.py`.
Strings are modelled as `List Char` (ASCII-faithful: Python's Unicode-aware
`str.lower`, `\w` and `\s` are modelled by Lean's ASCII `Char.toLower`,
`Char.isAlphanum`/`'_'` and `Char.isWhitespace`).  Python floats are modelled
by `ℚ`; `round(x, n)` is Python's round-half-to-even at `n` decimal digits.
-/

namespace PromptShield

/-- `\s`-class test, modelling Python's whitespace class. -/
def isWs (c : Char) : Bool := c.isWhitespace

/-- `\w`-class test: Python's `\w` is letters, digits and the underscore. -/
def isWordChar (c : Char) : Bool := c.isAlphanum || c = '_'

/-- `str.lower()` on the character-list model. -/
def pyLower (s : List Char) : List Char := s.map Char.toLower

/-- `str.upper()` on the character-list model. -/
def pyUpper (s : List Char) : List Char := s.map Char.toUpper

/-- `str.strip()`: drop leading and trailing whitespace. -/
def pyStrip (s : List Char) : List Char :=
  ((s.dropWhile isWs).reverse.dropWhile isWs).reverse

/-- `re.sub(r"[^\w\s]", " ", s)`: replace each character that is neither a
word character nor whitespace by a single space. -/
def subNonWord (s : List Char) : List Char :=
  s.map fun c => if isWordChar c || isWs c then c else ' '

/-- Helper for `re.sub(r"\s+", " ", s)`: the flag records whether the previous
character was whitespace (in which case further whitespace is dropped). -/
def collapseWsAux : Bool → List Char → List Char
  | _, [] => []
  | prevWs, c :: cs =>
    if isWs c then
      if prevWs then collapseWsAux true cs else ' ' :: collapseWsAux true cs
    else c :: collapseWsAux false cs

/-- `re.sub(r"\s+", " ", s)`: replace each maximal whitespace run by one space. -/
def collapseWs (s : List Char) : List Char := collapseWsAux false s

/-- Helper for `str.split()`: `acc` is the current word, reversed. -/
def pySplitAux : List Char → List Char → List (List Char)
  | acc, [] => if acc.isEmpty then [] else [acc.reverse]
  | acc, c :: cs =>
    if isWs c then
      if acc.isEmpty then pySplitAux [] cs else acc.reverse :: pySplitAux [] cs
    else pySplitAux (c :: acc) cs

/-- `str.split()`: split on whitespace runs, dropping empty words. -/
def pySplit (s : List Char) : List (List Char) := pySplitAux [] s

/-- Python's `needle in hay` substring test. -/
def containsSub : List Char → List Char → Bool
  | needle, [] => needle.isEmpty
  | needle, c :: cs => needle.isPrefixOf (c :: cs) || containsSub needle cs

/-- `RISKY_ACTIONS` from `detector.py`. -/
def RISKY_ACTIONS : List (List Char) :=
  ["kill".data, "hack".data, "bypass".data, "override".data, "reveal".data,
   "disable".data, "steal".data, "access".data, "make".data, "create".data,
   "build".data, "produce".data, "manufacture".data]

/-- `SENSITIVE_TARGETS` from `detector.py`. -/
def SENSITIVE_TARGETS : List (List Char) :=
  ["human".data, "person".data, "people".data, "user".data, "system".data,
   "database".data, "password".data, "account".data, "server".data,
   "backend".data, "drug".data, "cocaine".data, "bomb".data, "weapon".data,
   "explosive".data]

/-- `SAFE_TARGETS` from `detector.py`. -/
def SAFE_TARGETS : List (List Char) :=
  ["virus".data, "bug".data, "malware".data, "error".data, "issue".data,
   "file".data]

/-- `MAX_DISTANCE` from `detector.py`. -/
def MAX_DISTANCE : Nat := 3

/-- Inner loop of the dynamic-programming table of `_levenshtein`.
Given the remaining characters of `b`, the tail of the previous row starting
at `dp[i-1][j-1]`, and the entry `dp[i][j-1]` just computed, it produces the
entries `dp[i][j], dp[i][j+1], ...` of the current row. -/
def levNewRowAux (ca : Char) : List Char → List Nat → Nat → List Nat
  | [], _, _ => []
  | cb :: bs, pPrev :: pCur :: pRest, qPrev =>
    let q := min (min (pCur + 1) (qPrev + 1))
                 (pPrev + (if ca = cb then 0 else 1))
    q :: levNewRowAux ca bs (pCur :: pRest) q
  | _ :: _, _, _ => []

/-- One row step of the `_levenshtein` table: from row `dp[i-1]` (over all
prefixes of `b`) to row `dp[i]`, whose first entry is `dp[i][0] = i`. -/
def levNewRow (ca : Char) (b : List Char) (prev : List Nat) : List Nat :=
  let q0 := prev.headD 0 + 1
  q0 :: levNewRowAux ca b prev q0

/-- `_levenshtein(a, b)` from `detector.py`: the dynamic-programming edit
distance.  The table is built row by row (`dp[0][j] = j`,
`dp[i][j] = min(dp[i-1][j]+1, dp[i][j-1]+1, dp[i-1][j-1]+cost)`) and the
final entry `dp[m][n]` is returned. -/
def levenshtein (a b : List Char) : Nat :=
  (a.foldl (fun row ca => levNewRow ca b row) (List.range (b.length + 1))).getLastD 0

/-- The textbook edit-distance recurrence on prefixes (insertion, deletion,
substitution at cost 1 each), stated on the last characters exactly as the
table of `_levenshtein` fills `dp[i][j]` from `dp[i-1][j]`, `dp[i][j-1]`,
`dp[i-1][j-1]`.  This is the specification the table is proved against. -/
def editDistSpec : List Char → List Char → Nat
  | [], b => b.length
  | _ :: as, [] => as.length + 1
  | a :: as, b :: bs =>
    min (min (editDistSpec (List.dropLast (a :: as)) (b :: bs) + 1)
             (editDistSpec (a :: as) (List.dropLast (b :: bs)) + 1))
        (editDistSpec (List.dropLast (a :: as)) (List.dropLast (b :: bs)) +
          (if (a :: as).getLastD ' ' = (b :: bs).getLastD ' ' then 0 else 1))
  termination_by a b => a.length + b.length
  decreasing_by
  all_goals first
    | (simp [List.length_dropLast]; omega)
    | simp [List.length_dropLast]

/-- The scan state of `_closest_match`: `none` models
`best = None, best_dist = inf`; `some (c, d)` models `best = c, best_dist = d`. -/
def closestMatchAux (token : List Char) (maxDist : Nat) :
    List (List Char) → Option (List Char × Nat) → Option (List Char × Nat)
  | [], best => best
  | c :: cs, best =>
    let d := levenshtein token c
    let better : Bool :=
      match best with
      | none => decide (d ≤ maxDist)
      | some (_, bd) => decide (d ≤ maxDist) && decide (d < bd)
    closestMatchAux token maxDist cs (if better then some (c, d) else best)

/-- `_closest_match(token, candidates, max_dist)` from `detector.py`. -/
def closestMatch (token : List Char) (candidates : List (List Char))
    (maxDist : Nat) : Option (List Char) :=
  (closestMatchAux token maxDist candidates none).map Prod.fst

/-- The per-token lexicon lookup of `_keyword_score`:
`token if token in LEX else _closest_match(token, LEX, 1)`.  (Python's
`if action:` truthiness test is `Option.isSome` here: no lexicon entry is
the empty string.) -/
def lexMatch (token : List Char) (lex : List (List Char)) : Option (List Char) :=
  if token ∈ lex then some token else closestMatch token lex 1

/-- The hit list one lexicon produces over the token sequence: for each token
index, the matched word (exact or fuzzy), as `_keyword_score` appends
`{"word": w, "idx": idx}`. -/
def hitsFor (lex : List (List Char)) (tokens : List (List Char)) :
    List (List Char × Nat) :=
  tokens.enum.filterMap fun p => (lexMatch p.2 lex).map fun w => (w, p.1)

/-- The nested pair loops of `_keyword_score`: for every `(a, t)` pair with
token-index distance at most `MAX_DISTANCE`, add `pts` to the accumulator. -/
def pairLoop (pts : Nat) (as ts : List (List Char × Nat)) (init : Nat) : Nat :=
  as.foldl
    (fun s a =>
      ts.foldl
        (fun s t =>
          if ((a.2 : Int) - t.2).natAbs ≤ MAX_DISTANCE then s + pts else s) s)
    init

/-- The normalized text of `_keyword_score`:
`re.sub(r"\s+", " ", re.sub(r"[^\w\s]", " ", prompt.lower())).strip()`. -/
def normalizedOf (prompt : List Char) : List Char :=
  pyStrip (collapseWs (subNonWord (pyLower prompt)))

/-- The intent-phrase test of `_keyword_score`: substring containment of
`"how to"`, `"ways to"` or `"method to"` in the normalized text. -/
def hasIntentPhrase (normalized : List Char) : Bool :=
  containsSub "how to".data normalized || containsSub "ways to".data normalized
    || containsSub "method to".data normalized

/-- `_keyword_score(prompt)` from `detector.py`: returns
`(score, detected_actions, detected_targets)`.  Python's set comprehension
`list({...})` is modelled as first-occurrence deduplication. -/
def keywordScore (prompt : List Char) :
    Nat × List (List Char) × List (List Char) :=
  let normalized := normalizedOf prompt
  if normalized.isEmpty then (0, [], [])
  else
    let tokens := pySplit normalized
    let actionIndices := hitsFor RISKY_ACTIONS tokens
    let sensitiveIndices := hitsFor SENSITIVE_TARGETS tokens
    let safeIndices := hitsFor SAFE_TARGETS tokens
    let score := pairLoop 3 actionIndices sensitiveIndices 0
    let score := pairLoop 1 actionIndices safeIndices score
    let score := if hasIntentPhrase normalized then score + 1 else score
    (min score 5, (actionIndices.map Prod.fst).dedup,
      (sensitiveIndices.map Prod.fst).dedup)

/-- Round-half-to-even to an integer, as Python's `round` on exact values. -/
def roundHalfEven (q : ℚ) : ℤ :=
  if q - ⌊q⌋ < 1/2 then ⌊q⌋
  else if 1/2 < q - ⌊q⌋ then ⌊q⌋ + 1
  else if ⌊q⌋ % 2 = 0 then ⌊q⌋ else ⌊q⌋ + 1

/-- Python's `round(q, n)`: round-half-to-even at `n` decimal digits. -/
def pyRound (n : Nat) (q : ℚ) : ℚ := (roundHalfEven (q * 10 ^ n) : ℚ) / 10 ^ n

/-- The classifier result (`ml_prediction`, `ml_confidence`) as `analyze_prompt`
receives it from `predict_prompt`. -/
structure MLResult where
  prediction : List Char
  confidence : ℚ
  deriving DecidableEq, Repr

/-- The Threat Report returned by `analyze_prompt` (constant fields
`explanation`, `scale`, `detectionMethod` omitted as string constants). -/
structure Report where
  threatScore : ℚ
  threatLevel : List Char
  detectedActions : List (List Char)
  detectedTargets : List (List Char)
  mlPrediction : List Char
  mlConfidence : ℚ
  confidence : List Char
  deriving DecidableEq, Repr

/-- The running total of `analyze_prompt` before clamping: the keyword score,
plus `ml_confidence * 5` when the classifier says MALICIOUS, forced to at
least 7 when additionally `ml_confidence >= 0.5`. -/
def fusedScore (k : Nat) (ml : MLResult) : ℚ :=
  if ml.prediction = "MALICIOUS".data then
    if 1/2 ≤ ml.confidence then max ((k : ℚ) + ml.confidence * 5) 7
    else (k : ℚ) + ml.confidence * 5
  else (k : ℚ)

/-- `score = min(10, round(score, 1))` in `analyze_prompt`. -/
def finalScore (k : Nat) (ml : MLResult) : ℚ :=
  min 10 (pyRound 1 (fusedScore k ml))

/-- The threat-level derivation of `analyze_prompt`. -/
def threatLevelOf (s : ℚ) : List Char :=
  if s ≤ 2 then "SAFE".data
  else if s ≤ 6 then "MEDIUM".data
  else "HIGH".data

/-- The confidence-label derivation of `analyze_prompt`. -/
def confidenceLabelOf (s : ℚ) : List Char :=
  if 8 ≤ s then "high".data
  else if 4 ≤ s then "medium".data
  else "low".data

/-- The fusion, clamping, rounding and level derivation of `analyze_prompt`,
applied to an already-stripped prompt's keyword result and a classifier
result. -/
def fuse (kw : Nat × List (List Char) × List (List Char)) (ml : MLResult) :
    Report :=
  { threatScore := finalScore kw.1 ml
    threatLevel := threatLevelOf (finalScore kw.1 ml)
    detectedActions := kw.2.1
    detectedTargets := kw.2.2
    mlPrediction := ml.prediction
    mlConfidence := ml.confidence
    confidence := confidenceLabelOf (finalScore kw.1 ml) }

/-- `analyze_prompt(prompt)` with the classifier result abstracted: the prompt
is stripped (`(prompt or "").strip()`), scored by `_keyword_score`, and fused
with the given classifier result. -/
def analyzeWith (ml : MLResult) (prompt : List Char) : Report :=
  fuse (keywordScore (pyStrip prompt)) ml

/-- Outcome of one run of the loaded vectorizer+model on a preprocessed text:
either a predicted class (`false` = 0 = SAFE, `true` = 1 = MALICIOUS) with
the probability of each class, or a raised exception. -/
inductive PredictOutcome where
  | ok (pred : Bool) (probaSafe probaMal : ℚ)
  | failure
  deriving DecidableEq

/-- The loaded model+vectorizer pair of `ml_model.py`, abstracted as one
deterministic function from preprocessed text to a prediction outcome. -/
structure MLModelState where
  run : List Char → PredictOutcome

/-- `_preprocess(prompt)` from `ml_model.py`: `(prompt or "").lower().strip()`. -/
def preprocessMl (prompt : List Char) : List Char := pyStrip (pyLower prompt)

/-- `_SAFE_DEFAULT` from `ml_model.py`. -/
def SAFE_DEFAULT : MLResult := { prediction := "SAFE".data, confidence := 0 }

/-- `predict_prompt(prompt)` from `ml_model.py`.  `st = none` models missing
`model.pkl`/`vectorizer.pkl`; a `failure` outcome models the `except` branch. -/
def predictPrompt (st : Option MLModelState) (prompt : List Char) : MLResult :=
  match st with
  | none => SAFE_DEFAULT
  | some m =>
    match m.run (preprocessMl prompt) with
    | .failure => SAFE_DEFAULT
    | .ok pred pS pM =>
      { prediction := if pred then "MALICIOUS".data else "SAFE".data
        confidence := pyRound 4 (if pred then pM else pS) }

/-- `analyze_prompt(prompt)` from `detector.py` with the loaded classifier
state as explicit parameter: the stripped prompt is passed both to
`_keyword_score` and to `predict_prompt`. -/
def analyze (st : Option MLModelState) (prompt : List Char) : Report :=
  fuse (keywordScore (pyStrip prompt)) (predictPrompt st (pyStrip prompt))

/-! ## Rounding lemmas -/

theorem floor_le_roundHalfEven (q : ℚ) : ⌊q⌋ ≤ roundHalfEven q := by
  unfold roundHalfEven
  split_ifs <;> omega

theorem le_roundHalfEven {n : ℤ} {q : ℚ} (h : (n : ℚ) ≤ q) :
    n ≤ roundHalfEven q :=
  le_trans (Int.le_floor.mpr h) (floor_le_roundHalfEven q)

theorem roundHalfEven_le {n : ℤ} {q : ℚ} (h : q ≤ (n : ℚ)) :
    roundHalfEven q ≤ n := by
  have hf : ⌊q⌋ ≤ n := by simpa using Int.floor_le_floor h
  have hfl : (⌊q⌋ : ℚ) ≤ q := Int.floor_le q
  unfold roundHalfEven
  split_ifs with h1 h2 h3
  · exact hf
  · have hlt : (⌊q⌋ : ℚ) < (n : ℚ) := by linarith
    have := Int.cast_lt.mp hlt
    omega
  · exact hf
  · have h4 : (1 : ℚ)/2 ≤ q - (⌊q⌋ : ℚ) := not_lt.mp h1
    have hlt : (⌊q⌋ : ℚ) < (n : ℚ) := by linarith
    have := Int.cast_lt.mp hlt
    omega

theorem le_pyRound {a : ℤ} {q : ℚ} (n : Nat) (h : (a : ℚ) ≤ q) :
    (a : ℚ) ≤ pyRound n q := by
  unfold pyRound
  rw [le_div_iff₀ (by positivity : (0:ℚ) < 10 ^ n)]
  have h1 : ((a * 10 ^ n : ℤ) : ℚ) ≤ q * 10 ^ n := by
    push_cast
    exact mul_le_mul_of_nonneg_right h (by positivity)
  have h2 := le_roundHalfEven h1
  calc (a : ℚ) * 10 ^ n = ((a * 10 ^ n : ℤ) : ℚ) := by push_cast; ring
    _ ≤ ((roundHalfEven (q * 10 ^ n) : ℤ) : ℚ) := by exact_mod_cast h2

theorem pyRound_le {a : ℤ} {q : ℚ} (n : Nat) (h : q ≤ (a : ℚ)) :
    pyRound n q ≤ (a : ℚ) := by
  unfold pyRound
  rw [div_le_iff₀ (by positivity : (0:ℚ) < 10 ^ n)]
  have h1 : q * 10 ^ n ≤ ((a * 10 ^ n : ℤ) : ℚ) := by
    push_cast
    exact mul_le_mul_of_nonneg_right h (by positivity)
  have h2 := roundHalfEven_le h1
  calc ((roundHalfEven (q * 10 ^ n) : ℤ) : ℚ) ≤ ((a * 10 ^ n : ℤ) : ℚ) := by
        exact_mod_cast h2
    _ = (a : ℚ) * 10 ^ n := by push_cast; ring

/-! ## Bounds on the keyword score and the fused score -/

theorem keywordScore_fst_le (p : List Char) : (keywordScore p).1 ≤ 5 := by
  unfold keywordScore
  dsimp only
  split
  · simp
  · simp

theorem fusedScore_nonneg (k : Nat) (ml : MLResult) (h0 : 0 ≤ ml.confidence) :
    0 ≤ fusedScore k ml := by
  have hk : (0 : ℚ) ≤ (k : ℚ) := Nat.cast_nonneg k
  have hc : (0 : ℚ) ≤ ml.confidence * 5 := mul_nonneg h0 (by norm_num)
  unfold fusedScore
  split_ifs
  · exact le_trans (by norm_num) (le_max_right _ 7)
  · linarith
  · exact hk

theorem fusedScore_le_ten (k : Nat) (ml : MLResult) (hk : k ≤ 5)
    (hc1 : ml.confidence ≤ 1) : fusedScore k ml ≤ 10 := by
  have hkq : (k : ℚ) ≤ 5 := by exact_mod_cast hk
  have hc : ml.confidence * 5 ≤ 5 := by linarith
  unfold fusedScore
  split_ifs
  · exact max_le (by linarith) (by norm_num)
  · linarith
  · linarith

/-- C1: for every prompt string (the embedding is a total function, so
`analyze` cannot raise) and every classifier result whose confidence lies in
`[0, 1]`, the returned Threat Report's `threatScore` lies in `[0, 10]`. -/
theorem C1_analyze_threatScore_bounds (ml : MLResult) (p : List Char)
    (h0 : 0 ≤ ml.confidence) (_h1 : ml.confidence ≤ 1) :
    0 ≤ (analyzeWith ml p).threatScore ∧ (analyzeWith ml p).threatScore ≤ 10 := by
  constructor
  · show (0 : ℚ) ≤ finalScore (keywordScore (pyStrip p)).1 ml
    unfold finalScore
    refine le_min (by norm_num) ?_
    have := le_pyRound (a := 0) 1
      (by simpa using fusedScore_nonneg (keywordScore (pyStrip p)).1 ml h0)
    simpa using this
  · exact min_le_left _ _

/-- Witness for C1 at a concrete prompt and classifier result. -/
theorem C1_witness :
    0 ≤ (analyzeWith ⟨"MALICIOUS".data, 1/2⟩ "hack the system".data).threatScore ∧
    (analyzeWith ⟨"MALICIOUS".data, 1/2⟩ "hack the system".data).threatScore ≤ 10 :=
  C1_analyze_threatScore_bounds ⟨"MALICIOUS".data, 1/2⟩ "hack the system".data
    (by norm_num) (by norm_num)

theorem threatLevelOf_spec (s : ℚ) :
    (threatLevelOf s = "SAFE".data ↔ s ≤ 2) ∧
    (threatLevelOf s = "MEDIUM".data ↔ 2 < s ∧ s ≤ 6) ∧
    (threatLevelOf s = "HIGH".data ↔ 6 < s) := by
  unfold threatLevelOf
  split_ifs with h1 h2
  · exact ⟨⟨fun _ => h1, fun _ => rfl⟩,
      ⟨fun h => absurd h (by decide), fun h => absurd h1 (not_le.mpr h.1)⟩,
      ⟨fun h => absurd h (by decide), fun h => absurd h1 (not_le.mpr (by linarith))⟩⟩
  · exact ⟨⟨fun h => absurd h (by decide), fun h => absurd h h1⟩,
      ⟨fun _ => ⟨not_le.mp h1, h2⟩, fun _ => rfl⟩,
      ⟨fun h => absurd h (by decide), fun h => absurd h2 (not_le.mpr h)⟩⟩
  · exact ⟨⟨fun h => absurd h (by decide), fun h => absurd h h1⟩,
      ⟨fun h => absurd h (by decide), fun h => absurd h.2 h2⟩,
      ⟨fun _ => not_le.mp h2, fun _ => rfl⟩⟩

theorem confidenceLabelOf_spec (s : ℚ) :
    (confidenceLabelOf s = "high".data ↔ 8 ≤ s) ∧
    (confidenceLabelOf s = "medium".data ↔ 4 ≤ s ∧ s < 8) ∧
    (confidenceLabelOf s = "low".data ↔ s < 4) := by
  unfold confidenceLabelOf
  split_ifs with h1 h2
  · exact ⟨⟨fun _ => h1, fun _ => rfl⟩,
      ⟨fun h => absurd h (by decide), fun h => absurd h1 (not_le.mpr h.2)⟩,
      ⟨fun h => absurd h (by decide), fun h => absurd h1 (not_le.mpr (by linarith))⟩⟩
  · exact ⟨⟨fun h => absurd h (by decide), fun h => absurd h h1⟩,
      ⟨fun _ => ⟨h2, not_le.mp h1⟩, fun _ => rfl⟩,
      ⟨fun h => absurd h (by decide), fun h => absurd h2 (not_le.mpr h)⟩⟩
  · exact ⟨⟨fun h => absurd h (by decide), fun h => absurd h h1⟩,
      ⟨fun h => absurd h (by decide), fun h => absurd h.1 h2⟩,
      ⟨fun _ => not_le.mp h2, fun _ => rfl⟩⟩

/-- C2: in every returned Threat Report, `threatLevel` and `confidence` are
the step functions of `threatScore` with exactly the stated boundaries. -/
theorem C2_level_confidence_step_functions (ml : MLResult) (p : List Char) :
    ((analyzeWith ml p).threatLevel = "SAFE".data ↔
      (analyzeWith ml p).threatScore ≤ 2) ∧
    ((analyzeWith ml p).threatLevel = "MEDIUM".data ↔
      2 < (analyzeWith ml p).threatScore ∧ (analyzeWith ml p).threatScore ≤ 6) ∧
    ((analyzeWith ml p).threatLevel = "HIGH".data ↔
      6 < (analyzeWith ml p).threatScore) ∧
    ((analyzeWith ml p).confidence = "high".data ↔
      8 ≤ (analyzeWith ml p).threatScore) ∧
    ((analyzeWith ml p).confidence = "medium".data ↔
      4 ≤ (analyzeWith ml p).threatScore ∧ (analyzeWith ml p).threatScore < 8) ∧
    ((analyzeWith ml p).confidence = "low".data ↔
      (analyzeWith ml p).threatScore < 4) := by
  have h1 := threatLevelOf_spec ((analyzeWith ml p).threatScore)
  have h2 := confidenceLabelOf_spec ((analyzeWith ml p).threatScore)
  exact ⟨h1.1, h1.2.1, h1.2.2, h2.1, h2.2.1, h2.2.2⟩

/-- C3: a MALICIOUS classification with confidence at least 0.5 forces a
final `threatScore` of at least 7, for every prompt. -/
theorem C3_malicious_override (ml : MLResult) (p : List Char)
    (hm : ml.prediction = "MALICIOUS".data) (hc : 1/2 ≤ ml.confidence) :
    7 ≤ (analyzeWith ml p).threatScore := by
  show (7 : ℚ) ≤ finalScore (keywordScore (pyStrip p)).1 ml
  unfold finalScore
  refine le_min (by norm_num) ?_
  have h7 : (7 : ℚ) ≤ fusedScore (keywordScore (pyStrip p)).1 ml := by
    unfold fusedScore
    rw [if_pos hm, if_pos hc]
    exact le_max_right _ 7
  have := le_pyRound (a := 7) 1 (by exact_mod_cast h7)
  exact_mod_cast this

/-- Witness for C3: a prompt with keyword score 0 and a confident MALICIOUS
classification still scores at least 7. -/
theorem C3_witness : 7 ≤ (analyzeWith ⟨"MALICIOUS".data, 1/2⟩ "".data).threatScore :=
  C3_malicious_override ⟨"MALICIOUS".data, 1/2⟩ "".data rfl (by norm_num)

/-! ## Evaluation helpers for concrete scores -/

theorem roundHalfEven_intCast (a : ℤ) : roundHalfEven (a : ℚ) = a := by
  unfold roundHalfEven
  rw [Int.floor_intCast]
  norm_num

theorem pyRound_intCast (n : Nat) (a : ℤ) : pyRound n (a : ℚ) = a := by
  unfold pyRound
  have h : ((a : ℚ) * 10 ^ n) = ((a * 10 ^ n : ℤ) : ℚ) := by push_cast; ring
  rw [h, roundHalfEven_intCast]
  push_cast
  field_simp

theorem fusedScore_of_not_malicious {k : Nat} {ml : MLResult}
    (h : ml.prediction ≠ "MALICIOUS".data) : fusedScore k ml = (k : ℚ) := by
  unfold fusedScore
  rw [if_neg h]

theorem finalScore_of_intCast {k : Nat} {ml : MLResult} {a : ℤ}
    (h : fusedScore k ml = (a : ℚ)) (h10 : (a : ℚ) ≤ 10) :
    finalScore k ml = (a : ℚ) := by
  unfold finalScore
  rw [h, pyRound_intCast]
  exact min_eq_right h10

/-- C4 (amended): an empty, null (modelled as the empty string via
`prompt or ""`) or whitespace-only prompt always yields keyword score 0 with
empty evidence, and `threatScore = 0` whenever the classifier label is not
MALICIOUS (in particular for the safe default); a MALICIOUS classifier result
can still raise the score. -/
theorem C4_whitespace_prompt (ml : MLResult) (p : List Char)
    (h : pyStrip p = []) :
    keywordScore (pyStrip p) = (0, [], []) ∧
    (analyzeWith ml p).detectedActions = [] ∧
    (analyzeWith ml p).detectedTargets = [] ∧
    (ml.prediction ≠ "MALICIOUS".data → (analyzeWith ml p).threatScore = 0) := by
  have hk : keywordScore (pyStrip p) = (0, [], []) := by rw [h]; decide
  refine ⟨hk, ?_, ?_, ?_⟩
  · show (fuse (keywordScore (pyStrip p)) ml).detectedActions = []
    rw [hk]
    rfl
  · show (fuse (keywordScore (pyStrip p)) ml).detectedTargets = []
    rw [hk]
    rfl
  · intro hm
    show finalScore (keywordScore (pyStrip p)).1 ml = 0
    rw [hk]
    have h0 : fusedScore 0 ml = ((0 : ℤ) : ℚ) := by
      rw [fusedScore_of_not_malicious hm]
      norm_num
    have := finalScore_of_intCast h0 (by norm_num)
    simpa using this

/-- C4 counterexample: on the whitespace-only prompt `" "`, a MALICIOUS
classifier result with confidence 1 yields `threatScore = 7`, not 0, so the
claim does not hold for every possible classifier result. -/
theorem C4_counterexample :
    ¬ (∀ ml : MLResult, (analyzeWith ml " ".data).threatScore = 0 ∧
        (analyzeWith ml " ".data).detectedActions = [] ∧
        (analyzeWith ml " ".data).detectedTargets = []) := by
  intro h
  have h7 : (analyzeWith ⟨"MALICIOUS".data, 1⟩ " ".data).threatScore = 7 := by
    show finalScore (keywordScore (pyStrip " ".data)).1 ⟨"MALICIOUS".data, 1⟩ = 7
    have hk : keywordScore (pyStrip " ".data) = (0, [], []) := by decide
    rw [hk]
    have hf : fusedScore 0 ⟨"MALICIOUS".data, 1⟩ = ((7 : ℤ) : ℚ) := by
      unfold fusedScore
      rw [if_pos rfl, if_pos (by norm_num)]
      have : ((0 : Nat) : ℚ) + 1 * 5 = 5 := by norm_num
      rw [this]
      rw [max_eq_right (by norm_num : (5:ℚ) ≤ 7)]
      norm_num
    have := finalScore_of_intCast hf (by norm_num)
    simpa using this
  have h0 := (h ⟨"MALICIOUS".data, 1⟩).1
  rw [h0] at h7
  norm_num at h7

/-- Witness for C4 (amended) at the whitespace prompt with the safe-default
classifier result. -/
theorem C4_witness :
    keywordScore (pyStrip " ".data) = (0, [], []) ∧
    (analyzeWith ⟨"SAFE".data, 0⟩ " ".data).detectedActions = [] ∧
    (analyzeWith ⟨"SAFE".data, 0⟩ " ".data).detectedTargets = [] ∧
    (analyzeWith ⟨"SAFE".data, 0⟩ " ".data).threatScore = 0 := by
  obtain ⟨a, b, c, d⟩ := C4_whitespace_prompt ⟨"SAFE".data, 0⟩ " ".data (by decide)
  exact ⟨a, b, c, d (by decide)⟩

set_option maxRecDepth 40000 in
/-- C9: the end-to-end example `"How to hack a password?"` with the classifier
fixed to the safe default: tokens, intent phrase, hit indices, keyword score 4,
final `threatScore = 4.0`, level MEDIUM, confidence "medium". -/
theorem C9_example_end_to_end :
    pySplit (normalizedOf "How to hack a password?".data) =
      ["how".data, "to".data, "hack".data, "a".data, "password".data] ∧
    hasIntentPhrase (normalizedOf "How to hack a password?".data) = true ∧
    hitsFor RISKY_ACTIONS (pySplit (normalizedOf "How to hack a password?".data)) =
      [("hack".data, 2)] ∧
    hitsFor SENSITIVE_TARGETS (pySplit (normalizedOf "How to hack a password?".data)) =
      [("password".data, 4)] ∧
    keywordScore (pyStrip "How to hack a password?".data) =
      (4, ["hack".data], ["password".data]) ∧
    (analyzeWith ⟨"SAFE".data, 0⟩ "How to hack a password?".data).threatScore = 4 ∧
    (analyzeWith ⟨"SAFE".data, 0⟩ "How to hack a password?".data).threatLevel =
      "MEDIUM".data ∧
    (analyzeWith ⟨"SAFE".data, 0⟩ "How to hack a password?".data).confidence =
      "medium".data := by
  have hk : keywordScore (pyStrip "How to hack a password?".data) =
      (4, ["hack".data], ["password".data]) := by decide
  have hts : finalScore (keywordScore (pyStrip "How to hack a password?".data)).1
      ⟨"SAFE".data, 0⟩ = ((4 : ℤ) : ℚ) := by
    rw [hk]
    refine finalScore_of_intCast ?_ (by norm_num)
    rw [fusedScore_of_not_malicious (by decide)]
    norm_num
  refine ⟨by decide, by decide, by decide, by decide, hk, ?_, ?_, ?_⟩
  · show finalScore (keywordScore (pyStrip "How to hack a password?".data)).1
      ⟨"SAFE".data, 0⟩ = 4
    simpa using hts
  · show threatLevelOf (finalScore
      (keywordScore (pyStrip "How to hack a password?".data)).1
      ⟨"SAFE".data, 0⟩) = "MEDIUM".data
    rw [hts]
    unfold threatLevelOf
    rw [if_neg (by norm_num), if_pos (by norm_num)]
  · show confidenceLabelOf (finalScore
      (keywordScore (pyStrip "How to hack a password?".data)).1
      ⟨"SAFE".data, 0⟩) = "medium".data
    rw [hts]
    unfold confidenceLabelOf
    rw [if_neg (by norm_num), if_pos (by norm_num)]

/-! ## The keyword-score formula (C5) -/

/-- Spec-side count of (action hit, target hit) pairs whose token-index
distance is at most `MAX_DISTANCE` (each pair counted independently). -/
def windowPairs (as ts : List (List Char × Nat)) : Nat :=
  (as.map fun a =>
    ts.countP fun t => decide (((a.2 : Int) - t.2).natAbs ≤ MAX_DISTANCE)).sum

theorem foldl_window_add (pts : Nat) (a : List Char × Nat)
    (ts : List (List Char × Nat)) : ∀ s : Nat,
    ts.foldl
      (fun s t =>
        if ((a.2 : Int) - t.2).natAbs ≤ MAX_DISTANCE then s + pts else s) s
      = s + pts *
          ts.countP (fun t => decide (((a.2 : Int) - t.2).natAbs ≤ MAX_DISTANCE)) := by
  induction ts with
  | nil => intro s; simp
  | cons t ts ih =>
    intro s
    simp only [List.foldl_cons, List.countP_cons]
    by_cases h : ((a.2 : Int) - t.2).natAbs ≤ MAX_DISTANCE
    · rw [if_pos h, ih, decide_eq_true h]
      simp only [if_pos]
      ring
    · rw [if_neg h, ih, decide_eq_false h]
      simp only [Bool.false_eq_true, if_false]
      ring

theorem pairLoop_cons (pts : Nat) (a : List Char × Nat)
    (as ts : List (List Char × Nat)) (init : Nat) :
    pairLoop pts (a :: as) ts init =
      pairLoop pts as ts
        (ts.foldl
          (fun s t =>
            if ((a.2 : Int) - t.2).natAbs ≤ MAX_DISTANCE then s + pts else s)
          init) := rfl

theorem pairLoop_eq (pts : Nat) (as ts : List (List Char × Nat)) :
    ∀ init : Nat, pairLoop pts as ts init = init + pts * windowPairs as ts := by
  induction as with
  | nil => intro init; simp [pairLoop, windowPairs]
  | cons a as ih =>
    intro init
    rw [pairLoop_cons, foldl_window_add, ih]
    have : windowPairs (a :: as) ts =
        ts.countP (fun t => decide (((a.2 : Int) - t.2).natAbs ≤ MAX_DISTANCE)) +
          windowPairs as ts := by
      simp [windowPairs]
    rw [this]
    ring

/-- C5: the keyword score is exactly `min` of 5 and: 3 per
(action, sensitive-target) hit pair within token distance 3, plus 1 per
(action, safe-target) hit pair in the same window, plus a flat 1 if the
normalized text contains an intent phrase — so it is an integer in `[0, 5]`,
pairs at distance exactly 3 count and pairs at distance 4 do not (the window
test is `distance ≤ 3`). -/
theorem C5_keyword_score_formula (p : List Char) :
    (keywordScore p).1 =
      min (3 * windowPairs (hitsFor RISKY_ACTIONS (pySplit (normalizedOf p)))
              (hitsFor SENSITIVE_TARGETS (pySplit (normalizedOf p))) +
            windowPairs (hitsFor RISKY_ACTIONS (pySplit (normalizedOf p)))
              (hitsFor SAFE_TARGETS (pySplit (normalizedOf p))) +
            (if hasIntentPhrase (normalizedOf p) then 1 else 0)) 5 ∧
    (keywordScore p).1 ≤ 5 := by
  refine ⟨?_, keywordScore_fst_le p⟩
  unfold keywordScore
  dsimp only
  split
  · next he =>
    have h0 : normalizedOf p = [] := by
      cases h : normalizedOf p with
      | nil => rfl
      | cons c cs => rw [h] at he; simp [List.isEmpty] at he
    rw [h0]
    decide
  · next he =>
    rw [pairLoop_eq, pairLoop_eq]
    show (if hasIntentPhrase (normalizedOf p) = true then _ else _) ⊓ 5 = _
    congr 1
    split_ifs <;> ring

/-! ## The classifier-adapter contract (C8) -/

/-- C8: `predict_prompt` is a total function (it cannot raise): for every
model state and prompt it returns a label in {SAFE, MALICIOUS} and, provided
the underlying model's class probabilities lie in `[0, 1]` (the external
classifier contract), a confidence in `[0, 1]`; with missing artifacts
(`st = none`) or a prediction failure it returns exactly the safe default. -/
theorem C8_predict_prompt_contract (st : Option MLModelState) (prompt : List Char)
    (hrange : ∀ m pred pS pM, st = some m →
      m.run (preprocessMl prompt) = .ok pred pS pM →
      0 ≤ pS ∧ pS ≤ 1 ∧ 0 ≤ pM ∧ pM ≤ 1) :
    ((predictPrompt st prompt).prediction = "SAFE".data ∨
      (predictPrompt st prompt).prediction = "MALICIOUS".data) ∧
    (0 ≤ (predictPrompt st prompt).confidence ∧
      (predictPrompt st prompt).confidence ≤ 1) ∧
    (st = none → predictPrompt st prompt = SAFE_DEFAULT) ∧
    (∀ m, st = some m → m.run (preprocessMl prompt) = .failure →
      predictPrompt st prompt = SAFE_DEFAULT) := by
  cases st with
  | none =>
    exact ⟨Or.inl rfl, ⟨le_refl 0, zero_le_one⟩, fun _ => rfl,
      fun m hm => Option.noConfusion hm⟩
  | some m =>
    cases hrun : m.run (preprocessMl prompt) with
    | failure =>
      have hres : predictPrompt (some m) prompt = SAFE_DEFAULT := by
        simp [predictPrompt, hrun]
      refine ⟨?_, ?_, ?_, ?_⟩
      · rw [hres]; exact Or.inl rfl
      · rw [hres]; exact ⟨le_refl 0, zero_le_one⟩
      · intro h; exact Option.noConfusion h
      · intro m' hm' hr; rw [hres]
    | ok pred pS pM =>
      obtain ⟨h1, h2, h3, h4⟩ := hrange m pred pS pM rfl hrun
      have hconf : (predictPrompt (some m) prompt).confidence =
          pyRound 4 (if pred then pM else pS) := by
        simp [predictPrompt, hrun]
      have hpred : (predictPrompt (some m) prompt).prediction =
          (if pred then "MALICIOUS".data else "SAFE".data) := by
        simp [predictPrompt, hrun]
      have hq0 : 0 ≤ (if pred = true then pM else pS) := by
        cases pred
        · simpa using h1
        · simpa using h3
      have hq1 : (if pred = true then pM else pS) ≤ 1 := by
        cases pred
        · simpa using h2
        · simpa using h4
      refine ⟨?_, ?_, ?_, ?_⟩
      · rw [hpred]
        cases pred
        · exact Or.inl (by simp)
        · exact Or.inr (by simp)
      · rw [hconf]
        constructor
        · simpa using le_pyRound (a := 0) 4 (by simpa using hq0)
        · simpa using pyRound_le (a := 1) 4 (by simpa using hq1)
      · intro h; exact Option.noConfusion h
      · intro m' hm' hr
        cases hm'
        rw [hr] at hrun
        cases hrun

/-- Witness for C8: with the model artifacts absent, the adapter returns the
safe default on a concrete prompt. -/
theorem C8_witness :
    ((predictPrompt none "hello".data).prediction = "SAFE".data ∨
      (predictPrompt none "hello".data).prediction = "MALICIOUS".data) ∧
    (0 ≤ (predictPrompt none "hello".data).confidence ∧
      (predictPrompt none "hello".data).confidence ≤ 1) ∧
    (none = (none : Option MLModelState) → predictPrompt none "hello".data = SAFE_DEFAULT) ∧
    (∀ m, (none : Option MLModelState) = some m →
      m.run (preprocessMl "hello".data) = .failure →
      predictPrompt none "hello".data = SAFE_DEFAULT) :=
  C8_predict_prompt_contract none "hello".data
    (fun m pred pS pM h => by cases h)

/-! ## Normalization and token characters (C7) -/

/-- The full normalization pipeline of the spec's Tokenizer/Normalizer:
trim (`analyze_prompt`), lowercase, replace non-word non-space characters,
collapse whitespace, trim again, split (`_keyword_score`). -/
def tokensOf (prompt : List Char) : List (List Char) :=
  pySplit (normalizedOf (pyStrip prompt))

theorem mem_subNonWord {c : Char} {s : List Char} (h : c ∈ subNonWord s) :
    isWordChar c = true ∨ isWs c = true := by
  unfold subNonWord at h
  obtain ⟨a, _, ha⟩ := List.mem_map.mp h
  by_cases hcond : (isWordChar a || isWs a) = true
  · rw [if_pos hcond] at ha
    subst ha
    exact Bool.or_eq_true_iff.mp hcond
  · rw [if_neg hcond] at ha
    subst ha
    exact Or.inr (by decide)

theorem mem_collapseWsAux {c : Char} :
    ∀ (b : Bool) (s : List Char),
      (∀ x ∈ s, isWordChar x = true ∨ isWs x = true) →
      c ∈ collapseWsAux b s → isWordChar c = true ∨ isWs c = true := by
  intro b s
  induction s generalizing b with
  | nil => intro _ h; simp [collapseWsAux] at h
  | cons c0 cs ih =>
    intro hall h
    unfold collapseWsAux at h
    by_cases hws : isWs c0 = true
    · rw [if_pos hws] at h
      by_cases hb : b = true
      · rw [if_pos hb] at h
        exact ih true (fun x hx => hall x (List.mem_cons_of_mem c0 hx)) h
      · rw [if_neg hb] at h
        rcases List.mem_cons.mp h with h1 | h1
        · subst h1; exact Or.inr (by decide)
        · exact ih true (fun x hx => hall x (List.mem_cons_of_mem c0 hx)) h1
    · rw [if_neg hws] at h
      rcases List.mem_cons.mp h with h1 | h1
      · subst h1; exact hall _ (List.mem_cons_self _ _)
      · exact ih false (fun x hx => hall x (List.mem_cons_of_mem c0 hx)) h1

theorem mem_pyStrip {c : Char} {s : List Char} (h : c ∈ pyStrip s) : c ∈ s := by
  unfold pyStrip at h
  rw [List.mem_reverse] at h
  have h1 := List.dropWhile_subset isWs h
  rw [List.mem_reverse] at h1
  exact List.dropWhile_subset isWs h1

theorem mem_normalizedOf {c : Char} {s : List Char}
    (h : c ∈ normalizedOf s) : isWordChar c = true ∨ isWs c = true := by
  unfold normalizedOf at h
  have h1 := mem_pyStrip h
  exact mem_collapseWsAux false _ (fun x hx => mem_subNonWord hx) h1

theorem pySplitAux_chars (P : Char → Prop) :
    ∀ (s acc : List Char), (∀ c ∈ acc, P c) →
      (∀ c ∈ s, isWs c = false → P c) →
      ∀ tok ∈ pySplitAux acc s, ∀ c ∈ tok, P c := by
  intro s
  induction s with
  | nil =>
    intro acc hacc _ tok htok c hc
    unfold pySplitAux at htok
    by_cases he : acc.isEmpty
    · rw [if_pos he] at htok; simp at htok
    · rw [if_neg he] at htok
      rcases List.mem_singleton.mp htok with h1
      subst h1
      exact hacc c (List.mem_reverse.mp hc)
  | cons c0 cs ih =>
    intro acc hacc hs tok htok c hc
    unfold pySplitAux at htok
    by_cases hws : isWs c0 = true
    · rw [if_pos hws] at htok
      by_cases he : acc.isEmpty
      · rw [if_pos he] at htok
        exact ih [] (by simp)
          (fun x hx hxw => hs x (List.mem_cons_of_mem c0 hx) hxw) tok htok c hc
      · rw [if_neg he] at htok
        rcases List.mem_cons.mp htok with h1 | h1
        · subst h1
          exact hacc c (List.mem_reverse.mp hc)
        · exact ih [] (by simp)
            (fun x hx hxw => hs x (List.mem_cons_of_mem c0 hx) hxw) tok h1 c hc
    · rw [if_neg hws] at htok
      have hP0 : P c0 := hs c0 (List.mem_cons_self c0 cs) (Bool.eq_false_iff.mpr hws)
      exact ih (c0 :: acc)
        (fun x hx => by
          rcases List.mem_cons.mp hx with h1 | h1
          · subst h1; exact hP0
          · exact hacc x h1)
        (fun x hx hxw => hs x (List.mem_cons_of_mem c0 hx) hxw) tok htok c hc

/-- C7 counterexample: the underscore is not a letter, a digit or whitespace,
yet it survives normalization into a token (`\w` keeps it), so the claim's
"no character other than letters, digits, and whitespace survives into a
token" is false at the input `"_"`. -/
theorem C7_counterexample :
    tokensOf "_".data = [['_']] ∧
    ('_'.isAlpha = false ∧ '_'.isDigit = false ∧ '_'.isWhitespace = false) := by
  decide

/-- C7 (amended): normalization trims, lowercases, replaces every character
that is not a word character (letter, digit or underscore, Python's `\w`) or
whitespace by a space, collapses whitespace runs, trims and splits; every
character of every token is a letter, a digit or an underscore. -/
theorem C7_token_chars (s tok : List Char) (c : Char)
    (htok : tok ∈ tokensOf s) (hc : c ∈ tok) :
    c.isAlphanum = true ∨ c = '_' := by
  have hP : isWordChar c = true := by
    refine pySplitAux_chars (fun x => isWordChar x = true)
      (normalizedOf (pyStrip s)) [] (by simp) ?_ tok htok c hc
    intro x hx hxw
    rcases mem_normalizedOf hx with h1 | h1
    · exact h1
    · rw [h1] at hxw; cases hxw
  rcases Bool.or_eq_true_iff.mp hP with h1 | h1
  · exact Or.inl h1
  · exact Or.inr (of_decide_eq_true h1)

/-- Witness for C7 (amended): in the token `a_b` of the prompt `"a_b!"`, the
underscore character satisfies the amended character class. -/
theorem C7_witness : '_'.isAlphanum = true ∨ '_' = '_' :=
  C7_token_chars "a_b!".data ['a', '_', 'b'] '_' (by decide) (by decide)

/-! ## The edit-distance table computes the textbook recurrence (C6) -/

theorem editDistSpec_nil_left (b : List Char) : editDistSpec [] b = b.length := by
  simp [editDistSpec]

theorem editDistSpec_nil_right (a : List Char) : editDistSpec a [] = a.length := by
  cases a with
  | nil => simp [editDistSpec]
  | cons x xs => simp [editDistSpec]

theorem editDistSpec_pos (a b : List Char) (ha : a ≠ []) (hb : b ≠ []) :
    editDistSpec a b =
      min (min (editDistSpec a.dropLast b + 1) (editDistSpec a b.dropLast + 1))
          (editDistSpec a.dropLast b.dropLast +
            (if a.getLastD ' ' = b.getLastD ' ' then 0 else 1)) := by
  cases a with
  | nil => exact absurd rfl ha
  | cons x xs =>
    cases b with
    | nil => exact absurd rfl hb
    | cons y ys => rw [editDistSpec]

theorem editDistSpec_concat_concat (x y : List Char) (u v : Char) :
    editDistSpec (x ++ [u]) (y ++ [v]) =
      min (min (editDistSpec x (y ++ [v]) + 1) (editDistSpec (x ++ [u]) y + 1))
          (editDistSpec x y + (if u = v then 0 else 1)) := by
  rw [editDistSpec_pos (x ++ [u]) (y ++ [v]) (by simp) (by simp)]
  rw [List.dropLast_concat, List.dropLast_concat,
    List.getLastD_concat, List.getLastD_concat]

theorem editDistSpec_self (a : List Char) : editDistSpec a a = 0 := by
  induction a using List.reverseRecOn with
  | nil => simp [editDistSpec_nil_left]
  | append_singleton x u ih =>
    rw [editDistSpec_concat_concat, ih, if_pos rfl]
    omega

theorem editDistSpec_eq_zero :
    ∀ (n : Nat) (a b : List Char), a.length + b.length ≤ n →
      editDistSpec a b = 0 → a = b := by
  intro n
  induction n with
  | zero =>
    intro a b hlen _
    have ha : a = [] := List.length_eq_zero.mp (by omega)
    have hb : b = [] := List.length_eq_zero.mp (by omega)
    rw [ha, hb]
  | succ n ih =>
    intro a b hlen h
    rcases List.eq_nil_or_concat a with rfl | ⟨x, u, rfl⟩
    · rw [editDistSpec_nil_left] at h
      rw [List.length_eq_zero.mp h]
    · rcases List.eq_nil_or_concat b with rfl | ⟨y, v, rfl⟩
      · rw [editDistSpec_nil_right] at h
        simp at h
      · rw [List.concat_eq_append, List.concat_eq_append,
          editDistSpec_concat_concat] at h
        have h3 : editDistSpec x y = 0 ∧ (if u = v then 0 else 1) = 0 := by omega
        have huv : u = v := by
          by_contra hne
          rw [if_neg hne] at h3
          omega
        have hxy : x = y := by
          refine ih x y ?_ h3.1
          have := hlen
          simp [List.concat_eq_append, List.length_append] at this
          omega
        rw [List.concat_eq_append, List.concat_eq_append, hxy, huv]

/-- The suffix of the dynamic-programming row for the `a`-prefix `ap`,
starting at column `|bdone|`: edit distances from `ap` to each prefix of `b`
extending `bdone`. -/
def prefixRow (ap : List Char) : List Char → List Char → List Nat
  | bdone, [] => [editDistSpec ap bdone]
  | bdone, cb :: bs => editDistSpec ap bdone :: prefixRow ap (bdone ++ [cb]) bs

theorem prefixRow_shape (ap bdone : List Char) (bs : List Char) :
    ∃ rest, prefixRow ap bdone bs = editDistSpec ap bdone :: rest := by
  cases bs <;> exact ⟨_, rfl⟩

theorem levNewRowAux_spec (ca : Char) (ap : List Char) :
    ∀ (bs bdone : List Char),
      levNewRowAux ca bs (prefixRow ap bdone bs) (editDistSpec (ap ++ [ca]) bdone) =
        (prefixRow (ap ++ [ca]) bdone bs).tail := by
  intro bs
  induction bs with
  | nil => intro bdone; rfl
  | cons cb bs ih =>
    intro bdone
    obtain ⟨rest, hrest⟩ := prefixRow_shape ap (bdone ++ [cb]) bs
    show levNewRowAux ca (cb :: bs)
        (editDistSpec ap bdone :: prefixRow ap (bdone ++ [cb]) bs) _ = _
    rw [hrest]
    show (min (min (editDistSpec ap (bdone ++ [cb]) + 1)
            (editDistSpec (ap ++ [ca]) bdone + 1))
          (editDistSpec ap bdone + (if ca = cb then 0 else 1))) ::
        levNewRowAux ca bs (editDistSpec ap (bdone ++ [cb]) :: rest) _ = _
    rw [← editDistSpec_concat_concat ap bdone ca cb, ← hrest, ih (bdone ++ [cb])]
    show editDistSpec (ap ++ [ca]) (bdone ++ [cb]) ::
        (prefixRow (ap ++ [ca]) (bdone ++ [cb]) bs).tail =
      prefixRow (ap ++ [ca]) (bdone ++ [cb]) bs
    obtain ⟨rest', hrest'⟩ := prefixRow_shape (ap ++ [ca]) (bdone ++ [cb]) bs
    rw [hrest']
    rfl

theorem levNewRow_spec (ca : Char) (ap b : List Char) :
    levNewRow ca b (prefixRow ap [] b) = prefixRow (ap ++ [ca]) [] b := by
  obtain ⟨rest, hrest⟩ := prefixRow_shape ap [] b
  have hhead : (prefixRow ap [] b).headD 0 = editDistSpec ap [] := by
    rw [hrest]; rfl
  have hq0 : (prefixRow ap [] b).headD 0 + 1 = editDistSpec (ap ++ [ca]) [] := by
    rw [hhead, editDistSpec_nil_right, editDistSpec_nil_right]
    simp
  show ((prefixRow ap [] b).headD 0 + 1) ::
      levNewRowAux ca b (prefixRow ap [] b) ((prefixRow ap [] b).headD 0 + 1) =
    prefixRow (ap ++ [ca]) [] b
  rw [hq0, levNewRowAux_spec ca ap b []]
  obtain ⟨rest', hrest'⟩ := prefixRow_shape (ap ++ [ca]) [] b
  rw [hrest']
  rfl

theorem prefixRow_nil_eq_range' (bs : List Char) :
    ∀ bdone : List Char, prefixRow [] bdone bs =
      List.range' bdone.length (bs.length + 1) := by
  induction bs with
  | nil =>
    intro bdone
    show [editDistSpec [] bdone] = _
    rw [editDistSpec_nil_left, List.range'_succ]
    rfl
  | cons cb bs ih =>
    intro bdone
    show editDistSpec [] bdone :: prefixRow [] (bdone ++ [cb]) bs = _
    rw [editDistSpec_nil_left, ih (bdone ++ [cb])]
    have h1 : (bdone ++ [cb]).length = bdone.length + 1 := by simp
    simp only [List.length_cons]
    rw [h1, show List.range' bdone.length (bs.length + 1 + 1) =
      bdone.length :: List.range' (bdone.length + 1) (bs.length + 1) from
      List.range'_succ _ _ _]

theorem levenshtein_foldl_spec (b : List Char) :
    ∀ (arest ap : List Char),
      List.foldl (fun row ca => levNewRow ca b row) (prefixRow ap [] b) arest =
        prefixRow (ap ++ arest) [] b := by
  intro arest
  induction arest with
  | nil => intro ap; simp
  | cons ca arest ih =>
    intro ap
    rw [List.foldl_cons, levNewRow_spec ca ap b, ih (ap ++ [ca])]
    simp

theorem prefixRow_getLastD (ap : List Char) :
    ∀ (bs bdone : List Char) (d : Nat),
      (prefixRow ap bdone bs).getLastD d = editDistSpec ap (bdone ++ bs) := by
  intro bs
  induction bs with
  | nil => intro bdone d; simp [prefixRow]
  | cons cb bs ih =>
    intro bdone d
    show (editDistSpec ap bdone :: prefixRow ap (bdone ++ [cb]) bs).getLastD d = _
    rw [List.getLastD_cons, ih (bdone ++ [cb])]
    simp

/-- The row-by-row table of `_levenshtein` computes the textbook edit-distance
recurrence. -/
theorem levenshtein_eq_editDistSpec (a b : List Char) :
    levenshtein a b = editDistSpec a b := by
  unfold levenshtein
  have hbase : List.range (b.length + 1) = prefixRow [] [] b := by
    rw [prefixRow_nil_eq_range' b []]
    simp [List.range_eq_range']
  rw [hbase, levenshtein_foldl_spec b a [], prefixRow_getLastD]
  simp

/-! ## Characterization of the `_closest_match` scan (C6) -/

theorem closestMatchAux_cons_none (t : List Char) (m : Nat) (c : List Char)
    (cs : List (List Char)) :
    closestMatchAux t m (c :: cs) none =
      if levenshtein t c ≤ m then
        closestMatchAux t m cs (some (c, levenshtein t c))
      else closestMatchAux t m cs none := by
  by_cases h : levenshtein t c ≤ m
  · rw [if_pos h]
    show closestMatchAux t m cs
      (if decide (levenshtein t c ≤ m) = true then some (c, levenshtein t c)
       else none) = _
    rw [decide_eq_true h, if_pos rfl]
  · rw [if_neg h]
    show closestMatchAux t m cs
      (if decide (levenshtein t c ≤ m) = true then some (c, levenshtein t c)
       else none) = _
    rw [decide_eq_false h]
    simp

theorem closestMatchAux_cons_some (t : List Char) (m : Nat) (c : List Char)
    (cs : List (List Char)) (w0 : List Char) (d0 : Nat) :
    closestMatchAux t m (c :: cs) (some (w0, d0)) =
      if levenshtein t c ≤ m ∧ levenshtein t c < d0 then
        closestMatchAux t m cs (some (c, levenshtein t c))
      else closestMatchAux t m cs (some (w0, d0)) := by
  have hdec : (decide (levenshtein t c ≤ m) && decide (levenshtein t c < d0)) =
      decide (levenshtein t c ≤ m ∧ levenshtein t c < d0) := by
    simp
  by_cases h : levenshtein t c ≤ m ∧ levenshtein t c < d0
  · rw [if_pos h]
    show closestMatchAux t m cs
      (if (decide (levenshtein t c ≤ m) && decide (levenshtein t c < d0)) = true
       then some (c, levenshtein t c) else some (w0, d0)) = _
    rw [hdec, decide_eq_true h, if_pos rfl]
  · rw [if_neg h]
    show closestMatchAux t m cs
      (if (decide (levenshtein t c ≤ m) && decide (levenshtein t c < d0)) = true
       then some (c, levenshtein t c) else some (w0, d0)) = _
    rw [hdec, decide_eq_false h]
    simp

theorem closestMatchAux_isSome (t : List Char) (m : Nat) :
    ∀ (cs : List (List Char)) (w0 : List Char) (d0 : Nat),
      ∃ w d, closestMatchAux t m cs (some (w0, d0)) = some (w, d) := by
  intro cs
  induction cs with
  | nil => intro w0 d0; exact ⟨w0, d0, rfl⟩
  | cons c cs ih =>
    intro w0 d0
    rw [closestMatchAux_cons_some]
    split_ifs
    · exact ih c (levenshtein t c)
    · exact ih w0 d0

theorem closestMatchAux_none_eq (t : List Char) (m : Nat) :
    ∀ cs, closestMatchAux t m cs none = none →
      ∀ c ∈ cs, ¬ levenshtein t c ≤ m := by
  intro cs
  induction cs with
  | nil => intro _ c hc; cases hc
  | cons c cs ih =>
    intro h c' hc'
    rw [closestMatchAux_cons_none] at h
    by_cases hd : levenshtein t c ≤ m
    · rw [if_pos hd] at h
      obtain ⟨w, d, hw⟩ := closestMatchAux_isSome t m cs c (levenshtein t c)
      rw [hw] at h
      cases h
    · rw [if_neg hd] at h
      rcases List.mem_cons.mp hc' with rfl | h1
      · exact hd
      · exact ih h c' h1

theorem closestMatchAux_wf (t : List Char) (m : Nat) :
    ∀ (cs : List (List Char)) (best : Option (List Char × Nat)),
      (∀ w0 d0, best = some (w0, d0) → d0 = levenshtein t w0 ∧ d0 ≤ m) →
      ∀ w d, closestMatchAux t m cs best = some (w, d) →
        d = levenshtein t w ∧ d ≤ m := by
  intro cs
  induction cs with
  | nil => intro best hb w d h; exact hb w d h
  | cons c cs ih =>
    intro best hb w d h
    cases best with
    | none =>
      rw [closestMatchAux_cons_none] at h
      by_cases hd : levenshtein t c ≤ m
      · rw [if_pos hd] at h
        refine ih (some (c, levenshtein t c)) ?_ w d h
        intro w0 d0 he
        injection he with he'
        cases he'
        exact ⟨rfl, hd⟩
      · rw [if_neg hd] at h
        exact ih none (fun w0 d0 he => by cases he) w d h
    | some wd =>
      obtain ⟨w0', d0'⟩ := wd
      rw [closestMatchAux_cons_some] at h
      by_cases hd : levenshtein t c ≤ m ∧ levenshtein t c < d0'
      · rw [if_pos hd] at h
        refine ih (some (c, levenshtein t c)) ?_ w d h
        intro w0 d0 he
        injection he with he'
        cases he'
        exact ⟨rfl, hd.1⟩
      · rw [if_neg hd] at h
        exact ih (some (w0', d0')) hb w d h

theorem closestMatchAux_dist_le (t : List Char) (m : Nat) :
    ∀ (cs : List (List Char)) (w0 : List Char) (d0 : Nat) (w : List Char) (d : Nat),
      closestMatchAux t m cs (some (w0, d0)) = some (w, d) → d ≤ d0 := by
  intro cs
  induction cs with
  | nil =>
    intro w0 d0 w d h
    injection h with h'
    cases h'
    exact le_refl _
  | cons c cs ih =>
    intro w0 d0 w d h
    rw [closestMatchAux_cons_some] at h
    by_cases hd : levenshtein t c ≤ m ∧ levenshtein t c < d0
    · rw [if_pos hd] at h
      exact le_trans (ih c (levenshtein t c) w d h) (le_of_lt hd.2)
    · rw [if_neg hd] at h
      exact ih w0 d0 w d h

theorem closestMatchAux_min (t : List Char) (m : Nat) :
    ∀ (cs : List (List Char)) (best : Option (List Char × Nat)) (w : List Char)
      (d : Nat),
      closestMatchAux t m cs best = some (w, d) →
      ∀ c ∈ cs, levenshtein t c ≤ m → d ≤ levenshtein t c := by
  intro cs
  induction cs with
  | nil => intro best w d _ c hc; cases hc
  | cons c cs ih =>
    intro best w d h c' hc' hlev
    rcases List.mem_cons.mp hc' with rfl | h1
    · cases best with
      | none =>
        rw [closestMatchAux_cons_none, if_pos hlev] at h
        exact closestMatchAux_dist_le t m cs c' (levenshtein t c') w d h
      | some wd =>
        obtain ⟨w0, d0⟩ := wd
        rw [closestMatchAux_cons_some] at h
        by_cases hlt : levenshtein t c' < d0
        · rw [if_pos ⟨hlev, hlt⟩] at h
          exact closestMatchAux_dist_le t m cs c' (levenshtein t c') w d h
        · rw [if_neg (fun hh => hlt hh.2)] at h
          have := closestMatchAux_dist_le t m cs w0 d0 w d h
          omega
    · cases best with
      | none =>
        rw [closestMatchAux_cons_none] at h
        by_cases hd : levenshtein t c ≤ m
        · rw [if_pos hd] at h; exact ih _ w d h c' h1 hlev
        · rw [if_neg hd] at h; exact ih _ w d h c' h1 hlev
      | some wd =>
        obtain ⟨w0, d0⟩ := wd
        rw [closestMatchAux_cons_some] at h
        by_cases hd : levenshtein t c ≤ m ∧ levenshtein t c < d0
        · rw [if_pos hd] at h; exact ih _ w d h c' h1 hlev
        · rw [if_neg hd] at h; exact ih _ w d h c' h1 hlev

theorem closestMatchAux_mem (t : List Char) (m : Nat) :
    ∀ (cs : List (List Char)) (best : Option (List Char × Nat)) (w : List Char)
      (d : Nat),
      closestMatchAux t m cs best = some (w, d) →
      best = some (w, d) ∨ w ∈ cs := by
  intro cs
  induction cs with
  | nil => intro best w d h; exact Or.inl h
  | cons c cs ih =>
    intro best w d h
    cases best with
    | none =>
      rw [closestMatchAux_cons_none] at h
      by_cases hd : levenshtein t c ≤ m
      · rw [if_pos hd] at h
        rcases ih _ w d h with heq | hmem
        · injection heq with heq'
          have : w = c := (congrArg Prod.fst heq').symm
          exact Or.inr (this ▸ List.mem_cons_self c cs)
        · exact Or.inr (List.mem_cons_of_mem c hmem)
      · rw [if_neg hd] at h
        rcases ih _ w d h with heq | hmem
        · cases heq
        · exact Or.inr (List.mem_cons_of_mem c hmem)
    | some wd =>
      obtain ⟨w0', d0'⟩ := wd
      rw [closestMatchAux_cons_some] at h
      by_cases hd : levenshtein t c ≤ m ∧ levenshtein t c < d0'
      · rw [if_pos hd] at h
        rcases ih _ w d h with heq | hmem
        · injection heq with heq'
          have : w = c := (congrArg Prod.fst heq').symm
          exact Or.inr (this ▸ List.mem_cons_self c cs)
        · exact Or.inr (List.mem_cons_of_mem c hmem)
      · rw [if_neg hd] at h
        rcases ih _ w d h with heq | hmem
        · exact Or.inl heq
        · exact Or.inr (List.mem_cons_of_mem c hmem)

theorem closestMatchAux_first (t : List Char) (m : Nat) :
    ∀ (cs : List (List Char)) (best : Option (List Char × Nat)) (w : List Char)
      (d : Nat),
      closestMatchAux t m cs best = some (w, d) →
      best = some (w, d) ∨
        ((∃ L₁ L₂, cs = L₁ ++ w :: L₂ ∧ levenshtein t w = d ∧
            ∀ c ∈ L₁, m < levenshtein t c ∨ d < levenshtein t c) ∧
          ∀ w0 d0, best = some (w0, d0) → d < d0) := by
  intro cs
  induction cs with
  | nil => intro best w d h; exact Or.inl h
  | cons c cs ih =>
    intro best w d h
    cases best with
    | none =>
      rw [closestMatchAux_cons_none] at h
      by_cases hd : levenshtein t c ≤ m
      · rw [if_pos hd] at h
        rcases ih (some (c, levenshtein t c)) w d h with heq |
          ⟨⟨L₁, L₂, hsplit, hlev, hL₁⟩, hacc⟩
        · injection heq with heq'
          cases heq'
          exact Or.inr ⟨⟨[], cs, rfl, rfl,
            fun x hx => absurd hx (List.not_mem_nil x)⟩,
            fun w1 d1 hh => by cases hh⟩
        · have hdc : d < levenshtein t c := hacc c (levenshtein t c) rfl
          refine Or.inr ⟨⟨c :: L₁, L₂, by rw [hsplit]; rfl, hlev, ?_⟩,
            fun w1 d1 hh => by cases hh⟩
          intro x hx
          rcases List.mem_cons.mp hx with rfl | hx1
          · exact Or.inr hdc
          · exact hL₁ x hx1
      · rw [if_neg hd] at h
        rcases ih none w d h with heq | ⟨⟨L₁, L₂, hsplit, hlev, hL₁⟩, hacc⟩
        · cases heq
        · refine Or.inr ⟨⟨c :: L₁, L₂, by rw [hsplit]; rfl, hlev, ?_⟩,
            fun w1 d1 hh => by cases hh⟩
          intro x hx
          rcases List.mem_cons.mp hx with rfl | hx1
          · exact Or.inl (not_le.mp hd)
          · exact hL₁ x hx1
    | some wd =>
      obtain ⟨w0', d0'⟩ := wd
      rw [closestMatchAux_cons_some] at h
      by_cases hd : levenshtein t c ≤ m ∧ levenshtein t c < d0'
      · rw [if_pos hd] at h
        rcases ih (some (c, levenshtein t c)) w d h with heq |
          ⟨⟨L₁, L₂, hsplit, hlev, hL₁⟩, hacc⟩
        · injection heq with heq'
          cases heq'
          refine Or.inr ⟨⟨[], cs, rfl, rfl,
            fun x hx => absurd hx (List.not_mem_nil x)⟩, ?_⟩
          intro w1 d1 hh
          injection hh with hh'
          cases hh'
          exact hd.2
        · have hdc : d < levenshtein t c := hacc c (levenshtein t c) rfl
          refine Or.inr ⟨⟨c :: L₁, L₂, by rw [hsplit]; rfl, hlev, ?_⟩, ?_⟩
          · intro x hx
            rcases List.mem_cons.mp hx with rfl | hx1
            · exact Or.inr hdc
            · exact hL₁ x hx1
          · intro w1 d1 hh
            injection hh with hh'
            cases hh'
            exact lt_trans hdc hd.2
      · rw [if_neg hd] at h
        rcases ih (some (w0', d0')) w d h with heq |
          ⟨⟨L₁, L₂, hsplit, hlev, hL₁⟩, hacc⟩
        · exact Or.inl heq
        · have hdd0 : d < d0' := hacc w0' d0' rfl
          refine Or.inr ⟨⟨c :: L₁, L₂, by rw [hsplit]; rfl, hlev, ?_⟩, ?_⟩
          · intro x hx
            rcases List.mem_cons.mp hx with rfl | hx1
            · by_cases hcm : levenshtein t x ≤ m
              · have hnlt : ¬ levenshtein t x < d0' := fun hh => hd ⟨hcm, hh⟩
                exact Or.inr (lt_of_lt_of_le hdd0 (not_lt.mp hnlt))
              · exact Or.inl (not_le.mp hcm)
            · exact hL₁ x hx1
          · intro w1 d1 hh
            injection hh with hh'
            cases hh'
            exact hdd0

theorem levenshtein_self (a : List Char) : levenshtein a a = 0 := by
  rw [levenshtein_eq_editDistSpec]
  exact editDistSpec_self a

theorem levenshtein_eq_zero {a b : List Char} (h : levenshtein a b = 0) :
    a = b := by
  rw [levenshtein_eq_editDistSpec] at h
  exact editDistSpec_eq_zero (a.length + b.length) a b (le_refl _) h

theorem first_occurrence_split {x : List Char} {L : List (List Char)}
    (h : x ∈ L) : ∃ L₁ L₂, L = L₁ ++ x :: L₂ ∧ ∀ c ∈ L₁, c ≠ x := by
  induction L with
  | nil => cases h
  | cons y ys ih =>
    by_cases hxy : y = x
    · subst hxy
      exact ⟨[], ys, rfl, fun c hc => absurd hc (List.not_mem_nil c)⟩
    · have hx : x ∈ ys := by
        rcases List.mem_cons.mp h with h1 | h1
        · exact absurd h1.symm hxy
        · exact h1
      obtain ⟨L₁, L₂, he, hne⟩ := ih hx
      refine ⟨y :: L₁, L₂, by rw [he]; rfl, ?_⟩
      intro c hc
      rcases List.mem_cons.mp hc with rfl | hc1
      · exact hxy
      · exact hne c hc1

/-- C6: the fuzzy matcher checks exact containment first (returning the token
itself); otherwise the returned entry is within edit distance 1 of the token,
has the smallest distance among qualifying entries, and is the first such
entry in lexicon order; no entry within distance 1 means no match — and the
distance used is the classic dynamic-programming edit distance
(`levenshtein`, proved equal to the textbook recurrence `editDistSpec`). -/
theorem C6_fuzzy_matcher (t : List Char) (L : List (List Char)) :
    (∀ b, levenshtein t b = editDistSpec t b) ∧
    (t ∈ L → lexMatch t L = some t) ∧
    ((∃ w, lexMatch t L = some w) ↔ ∃ c ∈ L, levenshtein t c ≤ 1) ∧
    (∀ w, lexMatch t L = some w →
      w ∈ L ∧ levenshtein t w ≤ 1 ∧
      (∀ c ∈ L, levenshtein t c ≤ 1 → levenshtein t w ≤ levenshtein t c) ∧
      ∃ L₁ L₂, L = L₁ ++ w :: L₂ ∧
        ∀ c ∈ L₁, levenshtein t w < levenshtein t c) ∧
    ((∀ c ∈ L, 2 ≤ levenshtein t c) → lexMatch t L = none) := by
  have hmain : ∀ w, lexMatch t L = some w →
      w ∈ L ∧ levenshtein t w ≤ 1 ∧
      (∀ c ∈ L, levenshtein t c ≤ 1 → levenshtein t w ≤ levenshtein t c) ∧
      ∃ L₁ L₂, L = L₁ ++ w :: L₂ ∧
        ∀ c ∈ L₁, levenshtein t w < levenshtein t c := by
    intro w hw
    unfold lexMatch at hw
    by_cases hmem : t ∈ L
    · rw [if_pos hmem] at hw
      injection hw with hw'
      subst hw'
      refine ⟨hmem, ?_, ?_, ?_⟩
      · rw [levenshtein_self]; omega
      · intro c _ _; rw [levenshtein_self]; omega
      · obtain ⟨L₁, L₂, hsplit, hne⟩ := first_occurrence_split hmem
        refine ⟨L₁, L₂, hsplit, ?_⟩
        intro c hc
        rw [levenshtein_self]
        have hne0 : levenshtein t c ≠ 0 :=
          fun h0 => (hne c hc) (levenshtein_eq_zero h0).symm
        omega
    · rw [if_neg hmem] at hw
      unfold closestMatch at hw
      rcases haux : closestMatchAux t 1 L none with _ | wd
      · rw [haux] at hw; cases hw
      · obtain ⟨w', d⟩ := wd
        rw [haux] at hw
        have hw' : w' = w := by simpa using hw
        subst hw'
        obtain ⟨hd1, hd2⟩ :=
          closestMatchAux_wf t 1 L none (fun _ _ he => by cases he) w' d haux
        have hmem' : w' ∈ L := by
          rcases closestMatchAux_mem t 1 L none w' d haux with he | hmm
          · cases he
          · exact hmm
        refine ⟨hmem', by omega, ?_, ?_⟩
        · intro c hc hlev
          have := closestMatchAux_min t 1 L none w' d haux c hc hlev
          omega
        · rcases closestMatchAux_first t 1 L none w' d haux with he |
            ⟨⟨L₁, L₂, hsplit, hlev, hL₁⟩, _⟩
          · cases he
          · refine ⟨L₁, L₂, hsplit, ?_⟩
            intro c hc
            rcases hL₁ c hc with h1 | h1
            · omega
            · omega
  refine ⟨fun b => levenshtein_eq_editDistSpec t b, ?_, ?_, hmain, ?_⟩
  · intro hmem; unfold lexMatch; rw [if_pos hmem]
  · constructor
    · rintro ⟨w, hw⟩
      obtain ⟨hm, hle, _, _⟩ := hmain w hw
      exact ⟨w, hm, hle⟩
    · rintro ⟨c, hc, hlev⟩
      by_cases hmem : t ∈ L
      · exact ⟨t, by unfold lexMatch; rw [if_pos hmem]⟩
      · unfold lexMatch
        rw [if_neg hmem]
        unfold closestMatch
        rcases haux : closestMatchAux t 1 L none with _ | wd
        · exact absurd hlev (closestMatchAux_none_eq t 1 L haux c hc)
        · exact ⟨wd.1, rfl⟩
  · intro h2
    by_cases hmem : t ∈ L
    · have := h2 t hmem
      rw [levenshtein_self] at this
      omega
    · unfold lexMatch
      rw [if_neg hmem]
      unfold closestMatch
      rcases haux : closestMatchAux t 1 L none with _ | wd
      · rfl
      · obtain ⟨w', d⟩ := wd
        obtain ⟨hd1, hd2⟩ :=
          closestMatchAux_wf t 1 L none (fun _ _ he => by cases he) w' d haux
        have hmem' : w' ∈ L := by
          rcases closestMatchAux_mem t 1 L none w' d haux with he | hmm
          · cases he
          · exact hmm
        have := h2 w' hmem'
        omega

/-- Witness for C6: the one-character typo `"hsck"` of `"hack"`, the exact
word, and a word with no lexicon entry within distance 1. -/
theorem C6_witness :
    levenshtein "hsck".data "hack".data = editDistSpec "hsck".data "hack".data ∧
    lexMatch "hack".data RISKY_ACTIONS = some "hack".data ∧
    lexMatch "zzzzz".data RISKY_ACTIONS = none :=
  ⟨(C6_fuzzy_matcher "hsck".data RISKY_ACTIONS).1 "hack".data,
   (C6_fuzzy_matcher "hack".data RISKY_ACTIONS).2.1 (by decide),
   (C6_fuzzy_matcher "zzzzz".data RISKY_ACTIONS).2.2.2.2 (by decide)⟩

/-! ## Case and whitespace invariance (C10) -/

theorem char_toNat_ofNat {n : Nat} (h : n < 55296) : (Char.ofNat n).toNat = n := by
  have hv : n.isValidChar := Or.inl h
  rw [Char.ofNat, dif_pos hv]
  show (Char.ofNatAux n hv).toNat = n
  unfold Char.ofNatAux
  simp [Char.toNat, UInt32.toNat]

theorem toLower_eq_of_upper {c : Char} (h : c.toNat ≥ 65 ∧ c.toNat ≤ 90) :
    Char.toLower c = Char.ofNat (c.toNat + 32) := by
  show (if c.toNat ≥ 65 ∧ c.toNat ≤ 90 then Char.ofNat (c.toNat + 32) else c) = _
  rw [if_pos h]

theorem toLower_eq_self {c : Char} (h : ¬(c.toNat ≥ 65 ∧ c.toNat ≤ 90)) :
    Char.toLower c = c := by
  show (if c.toNat ≥ 65 ∧ c.toNat ≤ 90 then Char.ofNat (c.toNat + 32) else c) = _
  rw [if_neg h]

theorem toUpper_eq_of_lower {c : Char} (h : c.toNat ≥ 97 ∧ c.toNat ≤ 122) :
    Char.toUpper c = Char.ofNat (c.toNat - 32) := by
  show (if c.toNat ≥ 97 ∧ c.toNat ≤ 122 then Char.ofNat (c.toNat - 32) else c) = _
  rw [if_pos h]

theorem toUpper_eq_self {c : Char} (h : ¬(c.toNat ≥ 97 ∧ c.toNat ≤ 122)) :
    Char.toUpper c = c := by
  show (if c.toNat ≥ 97 ∧ c.toNat ≤ 122 then Char.ofNat (c.toNat - 32) else c) = _
  rw [if_neg h]

theorem char_eq_iff_toNat {c d : Char} : c = d ↔ c.toNat = d.toNat := by
  constructor
  · intro h; rw [h]
  · intro h
    calc c = Char.ofNat c.toNat := (Char.ofNat_toNat c).symm
      _ = Char.ofNat d.toNat := by rw [h]
      _ = d := Char.ofNat_toNat d

theorem isWs_iff_toNat (c : Char) :
    isWs c = true ↔
      (c.toNat = 32 ∨ c.toNat = 9 ∨ c.toNat = 13 ∨ c.toNat = 10) := by
  have h32 : (' ').toNat = 32 := rfl
  have h9 : ('\t').toNat = 9 := rfl
  have h13 : ('\r').toNat = 13 := rfl
  have h10 : ('\n').toNat = 10 := rfl
  show (decide (c = ' ') || decide (c = '\t') || decide (c = '\r') ||
    decide (c = '\n')) = true ↔ _
  simp only [Bool.or_eq_true, decide_eq_true_eq]
  rw [char_eq_iff_toNat, char_eq_iff_toNat, char_eq_iff_toNat,
    char_eq_iff_toNat, h32, h9, h13, h10]
  tauto

theorem isWs_toNat_ge (c : Char) (h : 65 ≤ c.toNat) : isWs c = false := by
  rw [Bool.eq_false_iff]
  intro hw
  rcases (isWs_iff_toNat c).mp hw with h1 | h1 | h1 | h1 <;> omega

theorem isWs_toLower (c : Char) : isWs (Char.toLower c) = isWs c := by
  by_cases h : c.toNat ≥ 65 ∧ c.toNat ≤ 90
  · have ht : (Char.toLower c).toNat = c.toNat + 32 := by
      rw [toLower_eq_of_upper h, char_toNat_ofNat (by omega)]
    rw [isWs_toNat_ge c (by omega), isWs_toNat_ge (Char.toLower c) (by omega)]
  · rw [toLower_eq_self h]

theorem isWs_toUpper (c : Char) : isWs (Char.toUpper c) = isWs c := by
  by_cases h : c.toNat ≥ 97 ∧ c.toNat ≤ 122
  · have ht : (Char.toUpper c).toNat = c.toNat - 32 := by
      rw [toUpper_eq_of_lower h, char_toNat_ofNat (by omega)]
    rw [isWs_toNat_ge c (by omega), isWs_toNat_ge (Char.toUpper c) (by omega)]
  · rw [toUpper_eq_self h]

theorem toLower_toLower (c : Char) :
    Char.toLower (Char.toLower c) = Char.toLower c := by
  by_cases h : c.toNat ≥ 65 ∧ c.toNat ≤ 90
  · have ht : (Char.toLower c).toNat = c.toNat + 32 := by
      rw [toLower_eq_of_upper h, char_toNat_ofNat (by omega)]
    exact toLower_eq_self (by omega)
  · rw [toLower_eq_self h]
    exact toLower_eq_self h

theorem toLower_toUpper (c : Char) :
    Char.toLower (Char.toUpper c) = Char.toLower c := by
  by_cases h : c.toNat ≥ 97 ∧ c.toNat ≤ 122
  · have ht : (Char.toUpper c).toNat = c.toNat - 32 := by
      rw [toUpper_eq_of_lower h, char_toNat_ofNat (by omega)]
    rw [toLower_eq_of_upper (by omega), ht]
    have h1 : c.toNat - 32 + 32 = c.toNat := by omega
    rw [h1, Char.ofNat_toNat, toLower_eq_self (by omega)]
  · rw [toUpper_eq_self h]

theorem pyLower_pyLower (s : List Char) : pyLower (pyLower s) = pyLower s := by
  induction s with
  | nil => rfl
  | cons c cs ih =>
    show Char.toLower (Char.toLower c) :: pyLower (pyLower cs) =
      Char.toLower c :: pyLower cs
    rw [toLower_toLower, ih]

theorem pyLower_pyUpper (s : List Char) : pyLower (pyUpper s) = pyLower s := by
  induction s with
  | nil => rfl
  | cons c cs ih =>
    show Char.toLower (Char.toUpper c) :: pyLower (pyUpper cs) =
      Char.toLower c :: pyLower cs
    rw [toLower_toUpper, ih]

theorem pyStrip_pyLower (s : List Char) :
    pyStrip (pyLower s) = pyLower (pyStrip s) := by
  have hcomp : (isWs ∘ Char.toLower) = isWs := funext isWs_toLower
  unfold pyStrip pyLower
  rw [List.dropWhile_map, hcomp, ← List.map_reverse, List.dropWhile_map, hcomp,
    ← List.map_reverse]

theorem dropWhile_append_ws (pre x : List Char)
    (h : ∀ c ∈ pre, isWs c = true) :
    (pre ++ x).dropWhile isWs = x.dropWhile isWs := by
  induction pre with
  | nil => rfl
  | cons c cs ih =>
    rw [List.cons_append, List.dropWhile_cons_of_pos (h c (List.mem_cons_self c cs))]
    exact ih (fun c' hc' => h c' (List.mem_cons_of_mem c hc'))

theorem dropWhile_ws_all (pre : List Char) (h : ∀ c ∈ pre, isWs c = true) :
    pre.dropWhile isWs = [] := by
  have h1 := dropWhile_append_ws pre [] h
  simpa using h1

theorem dropWhile_append_of_ne_nil (x post : List Char)
    (hx : x.dropWhile isWs ≠ []) :
    (x ++ post).dropWhile isWs = x.dropWhile isWs ++ post := by
  induction x with
  | nil => exact absurd rfl hx
  | cons c cs ih =>
    by_cases h : isWs c = true
    · rw [List.dropWhile_cons_of_pos h] at hx
      rw [List.cons_append, List.dropWhile_cons_of_pos h,
        List.dropWhile_cons_of_pos h]
      exact ih hx
    · have h' : ¬ (isWs c = true) := h
      rw [List.cons_append, List.dropWhile_cons_of_neg h',
        List.dropWhile_cons_of_neg h']
      rfl

theorem pyStrip_append_left (pre x : List Char)
    (h : ∀ c ∈ pre, isWs c = true) : pyStrip (pre ++ x) = pyStrip x := by
  unfold pyStrip
  rw [dropWhile_append_ws pre x h]

theorem pyStrip_append_right (x post : List Char)
    (h : ∀ c ∈ post, isWs c = true) : pyStrip (x ++ post) = pyStrip x := by
  unfold pyStrip
  by_cases hx : x.dropWhile isWs = []
  · have hallx : ∀ c ∈ x, isWs c = true := List.dropWhile_eq_nil_iff.mp hx
    have hall : ∀ c ∈ x ++ post, isWs c = true := by
      intro c hc
      rcases List.mem_append.mp hc with h1 | h1
      · exact hallx c h1
      · exact h c h1
    rw [dropWhile_ws_all _ hall, hx]
  · rw [dropWhile_append_of_ne_nil x post hx, List.reverse_append,
      dropWhile_append_ws post.reverse _
        (fun c hc => h c (List.mem_reverse.mp hc))]

theorem keywordScore_congr {p q : List Char} (h : pyLower p = pyLower q) :
    keywordScore p = keywordScore q := by
  unfold keywordScore normalizedOf
  rw [h]

theorem predictPrompt_congr (st : Option MLModelState) {p q : List Char}
    (h : pyLower p = pyLower q) : predictPrompt st p = predictPrompt st q := by
  unfold predictPrompt preprocessMl
  rw [h]

/-- C10 (implicit): `analyze` is invariant under lowercasing, uppercasing and
leading/trailing-whitespace padding of its input, for any fixed deterministic
classifier state: both the keyword path and the classifier-adapter path strip
and lowercase the prompt before use. -/
theorem C10_case_whitespace_invariance (st : Option MLModelState)
    (s : List Char) :
    analyze st (pyLower s) = analyze st s ∧
    analyze st (pyUpper s) = analyze st s ∧
    ∀ pre post, (∀ c ∈ pre, isWs c = true) → (∀ c ∈ post, isWs c = true) →
      analyze st (pre ++ s ++ post) = analyze st s := by
  have hlow : ∀ x y : List Char, pyLower x = pyLower y →
      analyze st x = analyze st y := by
    intro x y h
    unfold analyze
    have hstrip : pyLower (pyStrip x) = pyLower (pyStrip y) := by
      rw [← pyStrip_pyLower, ← pyStrip_pyLower, h]
    rw [keywordScore_congr hstrip, predictPrompt_congr st hstrip]
  refine ⟨hlow _ _ (pyLower_pyLower s), hlow _ _ (pyLower_pyUpper s), ?_⟩
  intro pre post hpre hpost
  unfold analyze
  rw [List.append_assoc, pyStrip_append_left pre _ hpre,
    pyStrip_append_right s post hpost]

/-- Witness for C10 at a concrete prompt, classifier state and padding. -/
theorem C10_witness :
    analyze none (pyLower "Hack the System".data) =
      analyze none "Hack the System".data ∧
    analyze none (pyUpper "Hack the System".data) =
      analyze none "Hack the System".data ∧
    analyze none (" ".data ++ "Hack the System".data ++ " ".data) =
      analyze none "Hack the System".data := by
  obtain ⟨h1, h2, h3⟩ :=
    C10_case_whitespace_invariance none "Hack the System".data
  exact ⟨h1, h2, h3 " ".data " ".data (by decide) (by decide)⟩

end PromptShield
